import Mathlib

deriving instance DecidableEq for Except

/-!
Verification development for the HMM part-of-speech tagger of
viterbiPOStagger.py: training estimators (initial, transition, emission
probabilities), Laplace smoothing with its residual, the unknown-token
patches, and the Viterbi decoder with backpointers and backtracking.

Representation of log-space table cells.  The source stores each
probability converted to log base 2, with an explicit guard mapping a
zero probability to the float negative infinity.  Since log2 is a
strictly monotone injection of the positive reals with log2 1 = 0, a
table cell holding the float log2 p is represented here by the
probability p itself (a rational number), and a cell holding negative
infinity is represented by 0.  Equality and order of the stored floats
correspond exactly to equality and order of the representatives, and a
sum of log values corresponds to a product of representatives.  The one
table cell the source stores without a log transform (the raw residual
written by laplace_add_emis) is treated by the separate type SVal below.
-/

section Training

variable {Tag Token : Type} [DecidableEq Tag] [DecidableEq Token]

/-- Embedding of find_init_prob: the count of each sentence-initial tag
divided by the number of sentences.  The log2 conversion with its zero
guard is the identity in the pre-log representation (a zero probability
stays 0, representing negative infinity). -/
def find_init_prob (sentInit : List Tag) (p : Tag) : ℚ :=
  (sentInit.count p : ℚ) / (sentInit.length : ℚ)

/-- Embedding of find_trans_prob: the count of consecutive pairs (i, j)
in the flattened training tag sequence, divided by the total count of i
in the whole sequence (the Counter of training_tags), in the pre-log
representation.  The source builds the nested dictionary over the tag
set pos; the embedding is a total function and the claims only query it
at tags of pos. -/
def find_trans_prob (tags : List Tag) (i j : Tag) : ℚ :=
  ((tags.zip tags.tail).count (i, j) : ℚ) / (tags.count i : ℚ)

/-- Embedding of find_emis_prob: a cell exists for (tag j, word w)
exactly when the pair (w, j) occurs in the training pairs, and then
holds the count of (w, j) divided by the total count of pairs tagged j,
in the pre-log representation.  The zero guard of the source is vacuous
here because a present cell has count at least 1. -/
def find_emis_prob (tagged : List (Token × Tag)) (j : Tag) (w : Token) : Option ℚ :=
  if (w, j) ∈ tagged then
    some ((tagged.count (w, j) : ℚ) / ((tagged.map Prod.snd).count j : ℚ))
  else none

/-- The size V of the training vocabulary: the number of distinct words
of the training pairs (the source takes the global set of training
observations, which is exactly the first components of the pairs). -/
def trainVocabSize (tagged : List (Token × Tag)) : ℕ :=
  ((tagged.map Prod.fst).dedup).length

/-- Embedding of the table part of laplace_emis_prob: a cell exists for
(tag j, word w) exactly when (w, j) occurs in the training pairs, and
then holds (count + 1) / (tag total + V), in the pre-log
representation. -/
def laplace_emis_prob (tagged : List (Token × Tag)) (j : Tag) (w : Token) : Option ℚ :=
  if (w, j) ∈ tagged then
    some (((tagged.count (w, j) : ℚ) + 1) /
      (((tagged.map Prod.snd).count j : ℚ) + (trainVocabSize tagged : ℚ)))
  else none

/-- Embedding of the unseen_values part of laplace_emis_prob: the
residual probability mass 1 / (tag total + V) for each tag.  The source
stores this as a plain probability (not a log value). -/
def unseen_values (tagged : List (Token × Tag)) (j : Tag) : ℚ :=
  1 / (((tagged.map Prod.snd).count j : ℚ) + (trainVocabSize tagged : ℚ))

/-- Embedding of add_emis: for every unknown word and every tag the
source writes the float 0 into the log-space emission table, which is
log2 1, so the pre-log representative is the probability 1.  All other
cells are passed through unchanged. -/
def add_emis (emis : Tag → Token → Option ℚ) (unknown : List Token)
    (j : Tag) (w : Token) : Option ℚ :=
  if w ∈ unknown then some 1 else emis j w

/-- A cell of the patched smoothed emission table, at the level of the
stored float: fromLog p is the float log2 p written by the estimator for
the probability p, while fromRaw r is the float r written directly,
without a log transform (this is what laplace_add_emis does with the
residual). -/
inductive SVal where
  | fromLog (p : ℚ)
  | fromRaw (r : ℚ)
deriving DecidableEq

/-- Embedding of laplace_add_emis at the stored-float level: for every
unknown word and every tag the source writes the raw residual
unseen_values[j] into the log-space table, without applying log2; the
pre-existing cells keep their stored floats log2 p. -/
def laplace_add_emis (smoothed : Tag → Token → Option ℚ) (unknown : List Token)
    (unseen : Tag → ℚ) (j : Tag) (w : Token) : Option SVal :=
  if w ∈ unknown then some (.fromRaw (unseen j)) else (smoothed j w).map .fromLog

/-- The words of the training pairs carrying tag j, with multiplicity
(the multiset of keys of the per-tag emission row, before deduplication). -/
def wordsOf (tagged : List (Token × Tag)) (j : Tag) : List Token :=
  (tagged.filter fun p => decide (p.2 = j)).map Prod.fst

/-- The sum of the per-tag row of the unsmoothed emission table in
probability space: the table value of each distinct word seen under tag
j, summed. -/
def emisRowSum (tagged : List (Token × Tag)) (j : Tag) : ℚ :=
  ((wordsOf tagged j).dedup.map fun w => (find_emis_prob tagged j w).getD 0).sum

/-- The sum of the per-tag row of the Laplace-smoothed emission table in
probability space. -/
def laplaceRowSum (tagged : List (Token × Tag)) (j : Tag) : ℚ :=
  ((wordsOf tagged j).dedup.map fun w => (laplace_emis_prob tagged j w).getD 0).sum

end Training


section Decoder

/-- Error outcomes of a decode call, mirroring the exceptions the source
can raise (indexError from reading observations[0] on empty input,
keyError from a dictionary lookup with an absent key, valueError from
max over an empty list), together with the EmptyInput condition named by
the specification error taxonomy, which the source embedding never
produces. -/
inductive PyErr where
  | indexError
  | keyError
  | valueError
  | emptyInput
deriving DecidableEq

/-- A backpointer cell: the source initialises cells to the integer 0
(unset), writes the string origin at time 0, and writes a predecessor
tag in the recursion when an emission entry exists.  The unset marker is
never a valid dictionary key, so following it raises a key error. -/
inductive BP (Tag : Type) where
  | unset
  | origin
  | tag (j : Tag)
deriving DecidableEq

variable {Tag Token V : Type} [LinearOrder Tag] [LinearOrder V]

/-- The larger of two (score, tag) pairs in the lexicographic order used
by the max of the source over tuples: compare scores first, then tags. -/
def pairMax (a b : V × Tag) : V × Tag :=
  if a.1 < b.1 then b else if b.1 < a.1 then a else if a.2 ≤ b.2 then b else a

/-- The maximum of a nonempty list of (score, tag) pairs, seeded with a
first element, in the lexicographic order; embeds the max builtin of the
source applied to the list of options. -/
def lexMax (x : V × Tag) (l : List (V × Tag)) : V × Tag :=
  l.foldl pairMax x

variable [Add V] [OrderBot V] [Inhabited Token]

/-- The Viterbi chart of viterbi_algorithm, as a function of the time
step and the tag.  At step 0 it is initial[j] + emission[j][obs[0]], or
bottom (negative infinity) when the token has no emission entry under j;
at step t+1 it is the first component of the maximal (score,
predecessor) option, or bottom when the token has no entry under j.
Scores are polymorphic in the ordered additive value type V: the source
computes with floats in log space.  List indexing uses getD, which
agrees with the source lookup at every index below the length. -/
def viterbiChart (obs : List Token) (states : List Tag) (ip : Tag → V)
    (tp : Tag → Tag → V) (ep : Tag → Token → Option V) : ℕ → Tag → V
  | 0, j =>
    match ep j (obs.getD 0 default) with
    | some e => ip j + e
    | none => ⊥
  | t + 1, j =>
    match ep j (obs.getD (t + 1) default) with
    | some e =>
      match states.map fun i => (viterbiChart obs states ip tp ep t i + tp i j + e, i) with
      | [] => ⊥
      | o :: os => (lexMax o os).1
    | none => ⊥

/-- The backpointer table of viterbi_algorithm: origin at step 0 for
every tag; at step t+1 the predecessor tag of the maximal option when an
emission entry exists, and otherwise the cell keeps its unset initial
value (the source only assigns backpointer[t][j] inside the branch that
has an emission entry). -/
def backPtr (obs : List Token) (states : List Tag) (ip : Tag → V)
    (tp : Tag → Tag → V) (ep : Tag → Token → Option V) : ℕ → Tag → BP Tag
  | 0, _ => .origin
  | t + 1, j =>
    match ep j (obs.getD (t + 1) default) with
    | some e =>
      match states.map fun i => (viterbiChart obs states ip tp ep t i + tp i j + e, i) with
      | [] => .unset
      | o :: os => .tag (lexMax o os).2
    | none => .unset

/-- The backtracking loop of viterbi_algorithm: starting from the chosen
final tag at index T-1, repeatedly append the current tag and follow its
backpointer one index down, stopping at the origin sentinel; following
an unset cell is a dictionary lookup with the integer 0 as key and
raises a key error.  The fuel argument bounds the number of iterations;
the charts built here reach origin within index + 1 steps, so decode
passes enough fuel. -/
def backtrackFuel (bp : ℕ → Tag → BP Tag) : ℕ → ℕ → BP Tag → Except PyErr (List Tag)
  | _, _, .origin => .ok []
  | _, _, .unset => .error .keyError
  | 0, _, .tag _ => .error .keyError
  | f + 1, t, .tag j => (backtrackFuel bp f (t - 1) (bp t j)).map fun l => j :: l

/-- Embedding of viterbi_algorithm.  On an empty observation list the
initialisation reads observations[0] and raises an index error (a key
error instead when the state set is also empty, from reading the chart
dictionary at index -1); on an empty state list the termination step
takes a max over an empty list and raises a value error.  Otherwise the
chart and backpointers are built, the final tag is the lexicographic
argmax over the last chart column, and backtracking produces the tag
sequence in reverse, which is reversed before returning. -/
def viterbi_algorithm (obs : List Token) (states : List Tag) (ip : Tag → V)
    (tp : Tag → Tag → V) (ep : Tag → Token → Option V) : Except PyErr (List Tag) :=
  match obs, states with
  | [], [] => .error .keyError
  | [], _ :: _ => .error .indexError
  | _ :: _, [] => .error .valueError
  | o :: os, s :: ss =>
    let T := (o :: os).length
    let last := fun j => viterbiChart (o :: os) (s :: ss) ip tp ep (T - 1) j
    let m := lexMax (last s, s) (ss.map fun j => (last j, j))
    (backtrackFuel (backPtr (o :: os) (s :: ss) ip tp ep) T (T - 1) (.tag m.2)).map
      List.reverse

/-- The lexicographic order on (score, tag) pairs that the max of the
source induces: strictly smaller score, or equal score and tag at most
as large. -/
def lexLe (a b : V × Tag) : Prop :=
  a.1 < b.1 ∨ (a.1 = b.1 ∧ a.2 ≤ b.2)

end Decoder

/-- A one-state, two-step model used to instantiate the recursion
theorem: constant zero log values, every emission entry present. -/
def w1Ip : ℕ → WithBot ℤ := fun _ => 0

/-- Constant transition table of the instantiation model. -/
def w1Tp : ℕ → ℕ → WithBot ℤ := fun _ _ => 0

/-- Total emission table of the instantiation model. -/
def w1Ep : ℕ → ℕ → Option (WithBot ℤ) := fun _ _ => some 0

/-- Initial table of the model trained on the one-sentence corpus x/A
y/B (tokens x = 0, y = 1; tags A = 0, B = 1), in log space over the
integers extended with bottom: the only sentence-initial tag is A, so
initial[A] = log2(1/1) = 0 and initial[B] = log2 0 = bottom. -/
def exInit : ℕ → WithBot ℤ := fun j => if j = 0 then 0 else ⊥

/-- Transition table of the x/A y/B model: the single transition A to B
gives log2(1/1) = 0; every other cell has probability 0, hence bottom. -/
def exTrans : ℕ → ℕ → WithBot ℤ := fun i j => if i = 0 ∧ j = 1 then 0 else ⊥

/-- Emission table of the x/A y/B model: A emits x with log2(1/1) = 0, B
emits y with log2(1/1) = 0, and no other cell exists.  The test
vocabulary is contained in the training vocabulary, so the unknown-word
patch adds nothing. -/
def exEmis : ℕ → ℕ → Option (WithBot ℤ) := fun j w =>
  if (j = 0 ∧ w = 0) ∨ (j = 1 ∧ w = 1) then some 0 else none

section CountingLemmas

variable {α β M : Type} [AddCommMonoid M]

theorem sum_map_add_fun (f g : α → M) (l : List α) :
    (l.map fun x => f x + g x).sum = (l.map f).sum + (l.map g).sum := by
  induction l with
  | nil => simp
  | cons a l ih =>
    simp only [List.map_cons, List.sum_cons, ih]
    rw [add_add_add_comm]

variable [DecidableEq α] [DecidableEq β]

theorem sum_indicator_zero (pos : List α) (a : α) (ha : a ∉ pos) :
    (pos.map fun p => if a = p then (1 : ℕ) else 0).sum = 0 := by
  induction pos with
  | nil => rfl
  | cons b t ih =>
    have hab : a ≠ b := fun h => ha (h ▸ List.mem_cons_self _ _)
    have hat : a ∉ t := fun h => ha (List.mem_cons_of_mem _ h)
    simp [hab, ih hat]

theorem sum_indicator_one (pos : List α) (a : α) (hnd : pos.Nodup) (ha : a ∈ pos) :
    (pos.map fun p => if a = p then (1 : ℕ) else 0).sum = 1 := by
  induction pos with
  | nil => exact absurd ha (List.not_mem_nil a)
  | cons b t ih =>
    rcases List.mem_cons.mp ha with rfl | hat
    · have hnt : a ∉ t := (List.nodup_cons.mp hnd).1
      simp [sum_indicator_zero t a hnt]
    · have hab : a ≠ b := by
        intro h
        exact (List.nodup_cons.mp hnd).1 (h ▸ hat)
      simp only [List.map_cons, List.sum_cons, if_neg hab]
      rw [ih (List.nodup_cons.mp hnd).2 hat]

/-- Summing the multiplicities of every element of a duplicate-free
cover gives the length of the list. -/
theorem sum_count_eq_length (l pos : List α) (hnd : pos.Nodup)
    (hcov : ∀ x ∈ l, x ∈ pos) : (pos.map fun p => l.count p).sum = l.length := by
  induction l with
  | nil => simp
  | cons a l ih =>
    have hcov' : ∀ x ∈ l, x ∈ pos := fun x hx => hcov x (List.mem_cons_of_mem _ hx)
    have ha : a ∈ pos := hcov a (List.mem_cons_self _ _)
    simp only [List.count_cons]
    rw [sum_map_add_fun (fun p => l.count p) (fun p => if a == p then 1 else 0) pos,
      ih hcov', List.length_cons]
    have hind : (pos.map fun p => if a == p then (1 : ℕ) else 0).sum = 1 := by
      have : (pos.map fun p => if a == p then (1 : ℕ) else 0)
          = pos.map fun p => if a = p then (1 : ℕ) else 0 := by
        apply List.map_congr_left
        intro p _
        simp [beq_iff_eq]
      rw [this]
      exact sum_indicator_one pos a hnd ha
    rw [hind]

/-- Summing, over a duplicate-free cover of the second components, the
multiplicities of the pairs (i, j) gives the multiplicity of i among the
first components. -/
theorem sum_count_pairs_fst (l : List (α × β)) (pos : List β) (i : α)
    (hnd : pos.Nodup) (hcov : ∀ q ∈ l, q.2 ∈ pos) :
    (pos.map fun j => l.count (i, j)).sum = (l.map Prod.fst).count i := by
  induction l with
  | nil => simp
  | cons q l ih =>
    have hcov' : ∀ p ∈ l, p.2 ∈ pos := fun p hp => hcov p (List.mem_cons_of_mem _ hp)
    simp only [List.count_cons]
    rw [sum_map_add_fun (fun j => l.count (i, j)) (fun j => if q == (i, j) then 1 else 0) pos,
      ih hcov']
    have hind : (pos.map fun j => if q == (i, j) then (1 : ℕ) else 0).sum
        = if q.1 == i then 1 else 0 := by
      have hrw : (pos.map fun j => if q == (i, j) then (1 : ℕ) else 0)
          = pos.map fun j => if q.1 = i ∧ q.2 = j then (1 : ℕ) else 0 := by
        apply List.map_congr_left
        intro j _
        congr 1
        simp [beq_iff_eq, Prod.ext_iff]
      rw [hrw]
      by_cases hq : q.1 = i
      · have : (pos.map fun j => if q.1 = i ∧ q.2 = j then (1 : ℕ) else 0)
            = pos.map fun j => if q.2 = j then (1 : ℕ) else 0 := by
          apply List.map_congr_left
          intro j _
          simp [hq]
        rw [this, sum_indicator_one pos q.2 hnd (hcov q (List.mem_cons_self _ _))]
        simp [hq]
      · have : (pos.map fun j => if q.1 = i ∧ q.2 = j then (1 : ℕ) else 0)
            = pos.map fun _ => (0 : ℕ) := by
          apply List.map_congr_left
          intro j _
          simp [hq]
        rw [this]
        simp [hq]
    rw [hind]
    simp only [List.map_cons, List.count_cons]

/-- Summing, over a duplicate-free cover of the first components of the
pairs carrying j, the multiplicities of the pairs (w, j) gives the
multiplicity of j among the second components. -/
theorem sum_count_pairs_snd (l : List (α × β)) (W : List α) (j : β)
    (hnd : W.Nodup) (hcov : ∀ q ∈ l, q.2 = j → q.1 ∈ W) :
    (W.map fun w => l.count (w, j)).sum = (l.map Prod.snd).count j := by
  induction l with
  | nil => simp
  | cons q l ih =>
    have hcov' : ∀ p ∈ l, p.2 = j → p.1 ∈ W :=
      fun p hp => hcov p (List.mem_cons_of_mem _ hp)
    simp only [List.count_cons]
    rw [sum_map_add_fun (fun w => l.count (w, j)) (fun w => if q == (w, j) then 1 else 0) W,
      ih hcov']
    have hind : (W.map fun w => if q == (w, j) then (1 : ℕ) else 0).sum
        = if q.2 == j then 1 else 0 := by
      have hrw : (W.map fun w => if q == (w, j) then (1 : ℕ) else 0)
          = W.map fun w => if q.1 = w ∧ q.2 = j then (1 : ℕ) else 0 := by
        apply List.map_congr_left
        intro w _
        congr 1
        simp [beq_iff_eq, Prod.ext_iff]
      rw [hrw]
      by_cases hq : q.2 = j
      · have : (W.map fun w => if q.1 = w ∧ q.2 = j then (1 : ℕ) else 0)
            = W.map fun w => if q.1 = w then (1 : ℕ) else 0 := by
          apply List.map_congr_left
          intro w _
          simp [hq]
        rw [this, sum_indicator_one W q.1 hnd (hcov q (List.mem_cons_self _ _) hq)]
        simp [hq]
      · have : (W.map fun w => if q.1 = w ∧ q.2 = j then (1 : ℕ) else 0)
            = W.map fun _ => (0 : ℕ) := by
          apply List.map_congr_left
          intro w _
          simp [hq]
        rw [this]
        simp [hq]
    rw [hind]
    simp only [List.map_cons, List.count_cons]

/-- Dividing each summand by a constant divides the sum. -/
theorem sum_map_div (l : List α) (f : α → ℚ) (c : ℚ) :
    (l.map fun x => f x / c).sum = (l.map f).sum / c := by
  simpa [div_eq_mul_inv] using List.sum_map_mul_right l f c⁻¹

/-- Casting each natural summand to the rationals casts the sum. -/
theorem sum_map_natCast (l : List α) (f : α → ℕ) :
    (l.map fun x => (f x : ℚ)).sum = ((l.map f).sum : ℚ) := by
  induction l with
  | nil => simp
  | cons a l ih => simp [ih]

/-- The first components of the list of consecutive pairs of a list are
the list without its last element. -/
theorem zip_tail_map_fst (l : List α) : (l.zip l.tail).map Prod.fst = l.dropLast := by
  induction l with
  | nil => rfl
  | cons a t ih =>
    cases t with
    | nil => rfl
    | cons b t' =>
      show ((a, b) :: ((b :: t').zip t')).map Prod.fst = (a :: b :: t').dropLast
      have ih' : ((b :: t').zip t').map Prod.fst = (b :: t').dropLast := by simpa using ih
      rw [List.map_cons, ih', List.dropLast_cons₂]

/-- If i is not the last element, dropping the last element keeps the
multiplicity of i. -/
theorem count_dropLast_of_ne_getLast (tags : List α) (i : α) (hne : tags ≠ [])
    (hlast : tags.getLast? ≠ some i) : tags.dropLast.count i = tags.count i := by
  conv_rhs => rw [← List.dropLast_append_getLast hne]
  rw [List.count_append]
  have hgl : tags.getLast hne ≠ i := by
    intro h
    exact hlast (by rw [List.getLast?_eq_getLast tags hne, h])
  have : List.count i [tags.getLast hne] = 0 := by
    simp [List.count_cons, beq_iff_eq, hgl]
  rw [this]
  omega

end CountingLemmas


section LexMaxLemmas

variable {Tag V : Type} [LinearOrder Tag] [LinearOrder V]


theorem lexLe_refl (a : V × Tag) : lexLe a a := Or.inr ⟨rfl, le_refl _⟩

theorem lexLe_trans {a b c : V × Tag} (h : lexLe a b) (g : lexLe b c) : lexLe a c := by
  rcases h with h | ⟨h, h2⟩ <;> rcases g with g | ⟨g, g2⟩
  · exact Or.inl (h.trans g)
  · exact Or.inl (lt_of_lt_of_le h g.le)
  · exact Or.inl (lt_of_le_of_lt h.le g)
  · exact Or.inr ⟨h.trans g, h2.trans g2⟩

theorem pairMax_cases (a b : V × Tag) : pairMax a b = a ∨ pairMax a b = b := by
  unfold pairMax
  split_ifs <;> simp

theorem pairMax_fst (a b : V × Tag) : (pairMax a b).1 = max a.1 b.1 := by
  unfold pairMax
  split_ifs with h1 h2 h3
  · exact (max_eq_right h1.le).symm
  · exact (max_eq_left h2.le).symm
  · exact (max_eq_right (not_lt.mp h2)).symm
  · exact (max_eq_left (not_lt.mp h1)).symm

theorem lexLe_pairMax_left (a b : V × Tag) : lexLe a (pairMax a b) := by
  unfold pairMax
  split_ifs with h1 h2 h3
  · exact Or.inl h1
  · exact lexLe_refl a
  · exact Or.inr ⟨le_antisymm (not_lt.mp h2) (not_lt.mp h1), h3⟩
  · exact lexLe_refl a

theorem lexLe_pairMax_right (a b : V × Tag) : lexLe b (pairMax a b) := by
  unfold pairMax
  split_ifs with h1 h2 h3
  · exact lexLe_refl b
  · exact Or.inl h2
  · exact lexLe_refl b
  · exact Or.inr ⟨le_antisymm (not_lt.mp h1) (not_lt.mp h2), le_of_not_le h3⟩

theorem lexMax_cons (x a : V × Tag) (l : List (V × Tag)) :
    lexMax x (a :: l) = lexMax (pairMax x a) l := rfl

theorem lexMax_mem (x : V × Tag) (l : List (V × Tag)) : lexMax x l ∈ x :: l := by
  induction l generalizing x with
  | nil => exact List.mem_cons_self _ _
  | cons a l ih =>
    rw [lexMax_cons]
    rcases List.mem_cons.mp (ih (pairMax x a)) with h | h
    · rcases pairMax_cases x a with g | g
      · rw [h, g]
        exact List.mem_cons_self _ _
      · rw [h, g]
        exact List.mem_cons_of_mem _ (List.mem_cons_self _ _)
    · exact List.mem_cons_of_mem _ (List.mem_cons_of_mem _ h)

theorem lexMax_isMax (x : V × Tag) (l : List (V × Tag)) :
    ∀ y ∈ x :: l, lexLe y (lexMax x l) := by
  induction l generalizing x with
  | nil =>
    intro y hy
    rw [List.mem_singleton.mp hy]
    exact lexLe_refl _
  | cons a l ih =>
    intro y hy
    rw [lexMax_cons]
    have hhead := ih (pairMax x a) (pairMax x a) (List.mem_cons_self _ _)
    rcases List.mem_cons.mp hy with rfl | hy'
    · exact lexLe_trans (lexLe_pairMax_left y a) hhead
    rcases List.mem_cons.mp hy' with rfl | hy''
    · exact lexLe_trans (lexLe_pairMax_right x y) hhead
    · exact ih (pairMax x a) y (List.mem_cons_of_mem _ hy'')

theorem lexMax_fst (x : V × Tag) (l : List (V × Tag)) :
    (lexMax x l).1 = (l.map Prod.fst).foldl max x.1 := by
  induction l generalizing x with
  | nil => rfl
  | cons a l ih =>
    rw [lexMax_cons, List.map_cons, List.foldl_cons, ih, pairMax_fst]

/-- A monotone map commutes with a left fold of binary maxima. -/
theorem foldl_max_map_mono {W : Type} [LinearOrder W] (f : V → W) (hf : Monotone f)
    (x : V) (l : List V) : (l.map f).foldl max (f x) = f (l.foldl max x) := by
  induction l generalizing x with
  | nil => rfl
  | cons a l ih =>
    rw [List.map_cons, List.foldl_cons, List.foldl_cons, ← hf.map_max, ih]

end LexMaxLemmas

/-- C1: for a model with states s :: ss, at every recursion step t+1
below the sequence length and every tag j whose emission entry e for the
token at that step exists (with addition of e strictly monotone, as it
is for the finite log values that trained emission tables store), the
chart cell equals the maximum over predecessor tags i of
viterbi[t][i] + transition[i][j], plus the emission value, and the
backpointer records a predecessor attaining that maximum, ties among
equal scores broken upward by tag in the lexicographic (score, tag)
order. -/
theorem viterbi_recursion_max
    {Tag Token V : Type} [LinearOrder Tag] [LinearOrder V] [Add V] [OrderBot V]
    [Inhabited Token]
    (obs : List Token) (s : Tag) (ss : List Tag) (ip : Tag → V) (tp : Tag → Tag → V)
    (ep : Tag → Token → Option V) (t : ℕ) (j : Tag) (e : V)
    (hT : t + 1 < obs.length)
    (he : ep j (obs.getD (t + 1) default) = some e)
    (hmono : StrictMono fun a : V => a + e) :
    viterbiChart obs (s :: ss) ip tp ep (t + 1) j
      = (ss.map fun i => viterbiChart obs (s :: ss) ip tp ep t i + tp i j).foldl max
          (viterbiChart obs (s :: ss) ip tp ep t s + tp s j) + e
    ∧ ∃ b : Tag, backPtr obs (s :: ss) ip tp ep (t + 1) j = .tag b
        ∧ b ∈ s :: ss
        ∧ viterbiChart obs (s :: ss) ip tp ep t b + tp b j
            = (ss.map fun i => viterbiChart obs (s :: ss) ip tp ep t i + tp i j).foldl max
                (viterbiChart obs (s :: ss) ip tp ep t s + tp s j)
        ∧ ∀ i ∈ s :: ss,
            viterbiChart obs (s :: ss) ip tp ep t i + tp i j
              = (ss.map fun i => viterbiChart obs (s :: ss) ip tp ep t i + tp i j).foldl max
                  (viterbiChart obs (s :: ss) ip tp ep t s + tp s j)
            → i ≤ b := by
  set score : Tag → V := fun i => viterbiChart obs (s :: ss) ip tp ep t i + tp i j with hscore
  set M : V := (ss.map score).foldl max (score s) with hM
  set o : V × Tag := (score s + e, s) with ho
  set os : List (V × Tag) := ss.map fun i => (score i + e, i) with hos
  have hchart : viterbiChart obs (s :: ss) ip tp ep (t + 1) j = (lexMax o os).1 := by
    rw [viterbiChart, he]
    rfl
  have hbp : backPtr obs (s :: ss) ip tp ep (t + 1) j = .tag (lexMax o os).2 := by
    rw [backPtr, he]
    rfl
  have hfst : (lexMax o os).1 = M + e := by
    rw [lexMax_fst, ho]
    have : os.map Prod.fst = (ss.map score).map fun a => a + e := by
      rw [hos, List.map_map, List.map_map]
      rfl
    rw [this]
    exact foldl_max_map_mono _ hmono.monotone (score s) (ss.map score)
  have hmemmap : lexMax o os ∈ (s :: ss).map fun i => (score i + e, i) := by
    have : (s :: ss).map (fun i => (score i + e, i)) = o :: os := by
      rw [List.map_cons, ho, hos]
    rw [this]
    exact lexMax_mem o os
  obtain ⟨b, hbmem, hbeq⟩ := List.mem_map.mp hmemmap
  refine ⟨hchart.trans hfst, b, ?_, hbmem, ?_, ?_⟩
  · rw [hbp, ← hbeq]
  · have h1 : (lexMax o os).1 = score b + e := by rw [← hbeq]
    have h2 : score b + e = M + e := by rw [← h1, hfst]
    exact hmono.injective h2
  · intro i hi hiM
    have hiM' : score i = M := hiM
    have hel : (score i + e, i) ∈ o :: os := by
      have : (s :: ss).map (fun i => (score i + e, i)) = o :: os := by
        rw [List.map_cons, ho, hos]
      rw [← this]
      exact List.mem_map.mpr ⟨i, hi, rfl⟩
    have hle := lexMax_isMax o os _ hel
    rcases hle with hlt | ⟨_, hsnd⟩
    · exfalso
      have hlt2 : score i + e < M + e := by
        have h0 : (score i + e, i).1 < (lexMax o os).1 := hlt
        rwa [hfst] at h0
      rw [hiM'] at hlt2
      exact lt_irrefl _ hlt2
    · have hsnd' : i ≤ (lexMax o os).2 := hsnd
      have hb2 : (lexMax o os).2 = b := by rw [← hbeq]
      rwa [hb2] at hsnd'


/-- Witness for viterbi_recursion_max at a concrete model, time step and
tag, with all hypotheses discharged. -/
theorem viterbi_recursion_max_witness :
    (0 + 1 < ([0, 0] : List ℕ).length)
    ∧ (viterbiChart [0, 0] [0] w1Ip w1Tp w1Ep (0 + 1) 0
        = (([] : List ℕ).map fun i => viterbiChart [0, 0] [0] w1Ip w1Tp w1Ep 0 i + w1Tp i 0).foldl max
            (viterbiChart [0, 0] [0] w1Ip w1Tp w1Ep 0 0 + w1Tp 0 0) + 0
      ∧ ∃ b : ℕ, backPtr [0, 0] [0] w1Ip w1Tp w1Ep (0 + 1) 0 = .tag b
          ∧ b ∈ [0]
          ∧ viterbiChart [0, 0] [0] w1Ip w1Tp w1Ep 0 b + w1Tp b 0
              = (([] : List ℕ).map fun i => viterbiChart [0, 0] [0] w1Ip w1Tp w1Ep 0 i + w1Tp i 0).foldl max
                  (viterbiChart [0, 0] [0] w1Ip w1Tp w1Ep 0 0 + w1Tp 0 0)
          ∧ ∀ i ∈ ([0] : List ℕ),
              viterbiChart [0, 0] [0] w1Ip w1Tp w1Ep 0 i + w1Tp i 0
                = (([] : List ℕ).map fun i => viterbiChart [0, 0] [0] w1Ip w1Tp w1Ep 0 i + w1Tp i 0).foldl max
                    (viterbiChart [0, 0] [0] w1Ip w1Tp w1Ep 0 0 + w1Tp 0 0)
              → i ≤ b) :=
  ⟨by decide,
    viterbi_recursion_max [0, 0] 0 [] w1Ip w1Tp w1Ep 0 0 0 (by decide) rfl
      (fun a b h => by simpa using h)⟩

section RowSums

variable {Tag Token : Type} [DecidableEq Tag] [DecidableEq Token]

theorem mem_wordsOf (tagged : List (Token × Tag)) (j : Tag) (w : Token) :
    w ∈ wordsOf tagged j ↔ (w, j) ∈ tagged := by
  simp only [wordsOf, List.mem_map, List.mem_filter, decide_eq_true_eq]
  constructor
  · rintro ⟨⟨a, b⟩, ⟨hmem, hb⟩, ha⟩
    subst hb
    subst ha
    exact hmem
  · intro h
    exact ⟨(w, j), ⟨h, rfl⟩, rfl⟩

theorem mem_of_mem_tail_list {l : List Tag} {x : Tag} (h : x ∈ l.tail) : x ∈ l := by
  cases l with
  | nil => simpa using h
  | cons a t => exact List.mem_cons_of_mem _ h

/-- The initial table, summed over a duplicate-free cover of the
sentence-initial tags, carries total probability mass 1 in probability
space. -/
theorem init_row_sum (sentInit pos : List Tag) (hnd : pos.Nodup)
    (hcov : ∀ x ∈ sentInit, x ∈ pos) (hne : sentInit ≠ []) :
    (pos.map (find_init_prob sentInit)).sum = 1 := by
  show (pos.map fun p => (sentInit.count p : ℚ) / (sentInit.length : ℚ)).sum = 1
  rw [sum_map_div pos (fun p => ((sentInit.count p : ℚ))) (sentInit.length : ℚ),
    sum_map_natCast, sum_count_eq_length sentInit pos hnd hcov]
  apply div_self
  have hlen : sentInit.length ≠ 0 := fun h => hne (List.length_eq_zero.mp h)
  exact_mod_cast hlen

/-- The transition row of a source tag i sums, in probability space, to
the multiplicity of i with the last element of the sequence removed,
divided by the full multiplicity of i: only occurrences that are not
sequence-final generate an outgoing transition, while the source
normalises by the full Counter of the tag. -/
theorem trans_row_sum (tags pos : List Tag) (i : Tag) (hnd : pos.Nodup)
    (hcov : ∀ x ∈ tags, x ∈ pos) :
    (pos.map (find_trans_prob tags i)).sum
      = (tags.dropLast.count i : ℚ) / (tags.count i : ℚ) := by
  show (pos.map fun j => ((tags.zip tags.tail).count (i, j) : ℚ) / (tags.count i : ℚ)).sum
      = (tags.dropLast.count i : ℚ) / (tags.count i : ℚ)
  rw [sum_map_div pos (fun j => (((tags.zip tags.tail).count (i, j) : ℚ))) (tags.count i : ℚ),
    sum_map_natCast]
  have hcovPairs : ∀ q ∈ tags.zip tags.tail, q.2 ∈ pos := by
    intro q hq
    exact hcov q.2 (mem_of_mem_tail_list (List.of_mem_zip hq).2)
  rw [sum_count_pairs_fst (tags.zip tags.tail) pos i hnd hcovPairs, zip_tail_map_fst]

/-- The unsmoothed emission row of a tag with at least one observed word
sums to 1 in probability space. -/
theorem emis_row_sum_eq_one (tagged : List (Token × Tag)) (j : Tag)
    (h : wordsOf tagged j ≠ []) : emisRowSum tagged j = 1 := by
  have hval : ((wordsOf tagged j).dedup.map fun w => (find_emis_prob tagged j w).getD 0)
      = (wordsOf tagged j).dedup.map fun w =>
          (tagged.count (w, j) : ℚ) / ((tagged.map Prod.snd).count j : ℚ) := by
    apply List.map_congr_left
    intro w hw
    have hmem : (w, j) ∈ tagged := (mem_wordsOf tagged j w).mp (List.mem_dedup.mp hw)
    simp [find_emis_prob, hmem]
  rw [emisRowSum, hval,
    sum_map_div _ (fun w => ((tagged.count (w, j) : ℚ))) ((tagged.map Prod.snd).count j : ℚ),
    sum_map_natCast]
  have hcov : ∀ q ∈ tagged, q.2 = j → q.1 ∈ (wordsOf tagged j).dedup := by
    intro q hq hqj
    apply List.mem_dedup.mpr
    apply (mem_wordsOf tagged j q.1).mpr
    rw [← hqj]
    exact hq
  rw [sum_count_pairs_snd tagged (wordsOf tagged j).dedup j (List.nodup_dedup _) hcov]
  apply div_self
  have hw : ∃ w, w ∈ wordsOf tagged j := List.exists_mem_of_ne_nil _ h
  obtain ⟨w, hw⟩ := hw
  have : j ∈ tagged.map Prod.snd :=
    List.mem_map.mpr ⟨(w, j), (mem_wordsOf tagged j w).mp hw, rfl⟩
  exact_mod_cast Nat.pos_iff_ne_zero.mp (List.count_pos_iff.mpr this)

theorem sum_map_one_rat (l : List Token) : (l.map fun _ => (1 : ℚ)).sum = l.length := by
  induction l with
  | nil => simp
  | cons a t ih => simp [ih, add_comm]

/-- The smoothed emission row of a tag, plus the residual counted once
for every training-vocabulary word unseen under that tag, carries total
probability mass 1. -/
theorem laplace_row_sum_full (tagged : List (Token × Tag)) (j : Tag)
    (hne : tagged ≠ []) :
    laplaceRowSum tagged j
      + ((trainVocabSize tagged : ℚ) - ((wordsOf tagged j).dedup.length : ℚ))
        * unseen_values tagged j = 1 := by
  have hV : 1 ≤ trainVocabSize tagged := by
    have hmapne : tagged.map Prod.fst ≠ [] := fun h => hne (List.map_eq_nil_iff.mp h)
    have hd : (tagged.map Prod.fst).dedup ≠ [] := fun h => hmapne ((List.dedup_eq_nil _).mp h)
    exact List.length_pos.mpr hd
  have hden : ((tagged.map Prod.snd).count j : ℚ) + (trainVocabSize tagged : ℚ) ≠ 0 := by
    have hc : (0 : ℚ) ≤ ((tagged.map Prod.snd).count j : ℚ) := Nat.cast_nonneg _
    have hv : (1 : ℚ) ≤ (trainVocabSize tagged : ℚ) := by exact_mod_cast hV
    intro h
    linarith
  have hval : ((wordsOf tagged j).dedup.map fun w => (laplace_emis_prob tagged j w).getD 0)
      = (wordsOf tagged j).dedup.map fun w =>
          ((tagged.count (w, j) : ℚ) + 1)
            / (((tagged.map Prod.snd).count j : ℚ) + (trainVocabSize tagged : ℚ)) := by
    apply List.map_congr_left
    intro w hw
    have hmem : (w, j) ∈ tagged := (mem_wordsOf tagged j w).mp (List.mem_dedup.mp hw)
    simp [laplace_emis_prob, hmem]
  rw [laplaceRowSum, hval,
    sum_map_div _ (fun w => ((tagged.count (w, j) : ℚ) + 1))
      (((tagged.map Prod.snd).count j : ℚ) + (trainVocabSize tagged : ℚ)),
    sum_map_add_fun (fun w => ((tagged.count (w, j) : ℚ))) (fun _ => (1 : ℚ)),
    sum_map_natCast, sum_map_one_rat]
  have hcov : ∀ q ∈ tagged, q.2 = j → q.1 ∈ (wordsOf tagged j).dedup := by
    intro q hq hqj
    apply List.mem_dedup.mpr
    apply (mem_wordsOf tagged j q.1).mpr
    rw [← hqj]
    exact hq
  rw [sum_count_pairs_snd tagged (wordsOf tagged j).dedup j (List.nodup_dedup _) hcov,
    unseen_values]
  field_simp

end RowSums

/-- C2 counterexample: on the tag sequence [A,B,A,B,A] (A = 0, B = 1)
the transition cell A to B holds probability 2/3, not 2/2 = 1, because
the source divides the two outgoing A transitions by the full Counter of
A, which is 3 (the final A has no outgoing transition).  In the pre-log
representation the claimed value log2(2/2) = 0 is the probability 1. -/
theorem trans_scenario_counterexample :
    find_trans_prob [0, 1, 0, 1, 0] 0 1 = 2 / 3
    ∧ find_trans_prob [0, 1, 0, 1, 0] 0 1 ≠ 1 := by
  constructor <;>
    norm_num [find_trans_prob, List.count_cons, List.count_nil, Prod.ext_iff]

/-- C2 amended: on the tag sequence [A,B,A,B,A], transition[A][B] is
log2(2/3) (two A-to-B transitions over three total occurrences of A) and
transition[B][A] is log2(2/2) = 0 (two B-to-A transitions over two total
occurrences of B); values in the pre-log representation. -/
theorem trans_scenario_amended :
    find_trans_prob [0, 1, 0, 1, 0] 0 1 = 2 / 3
    ∧ find_trans_prob [0, 1, 0, 1, 0] 1 0 = 1 := by
  constructor <;>
    norm_num [find_trans_prob, List.count_cons, List.count_nil, Prod.ext_iff]

/-- C3 counterexample: for the training tag sequence [A,B] over the tag
set {A,B} (A = 0, B = 1), the transition row of B sums to 0, not 1: B
occupies the final corpus position, so it has no outgoing transitions,
yet the source normalises by its full count. -/
theorem table_row_sums_counterexample :
    (([0, 1] : List ℕ).map (find_trans_prob [0, 1] 1)).sum = 0
    ∧ (([0, 1] : List ℕ).map (find_trans_prob [0, 1] 1)).sum ≠ 1 := by
  constructor <;>
    norm_num [find_trans_prob, List.count_cons, List.count_nil, Prod.ext_iff]

/-- C3 amended: in probability space, the initial table summed over a
duplicate-free cover of the sentence-initial tags is 1; the transition
row of a source tag that occurs and does not occupy the final corpus
position sums to 1; and the unsmoothed emission row of a tag with at
least one observation sums to 1.  The transition row of the corpus-final
tag is the exception forced by the counterexample. -/
theorem table_row_sums_amended {Tag Token : Type} [DecidableEq Tag] [DecidableEq Token] :
    (∀ (sentInit pos : List Tag), pos.Nodup → (∀ x ∈ sentInit, x ∈ pos) → sentInit ≠ []
      → (pos.map (find_init_prob sentInit)).sum = 1)
    ∧ (∀ (tags pos : List Tag) (i : Tag), pos.Nodup → (∀ x ∈ tags, x ∈ pos)
      → i ∈ tags → tags.getLast? ≠ some i
      → (pos.map (find_trans_prob tags i)).sum = 1)
    ∧ (∀ (tagged : List (Token × Tag)) (j : Tag), wordsOf tagged j ≠ []
      → emisRowSum tagged j = 1) := by
  refine ⟨init_row_sum, ?_, emis_row_sum_eq_one⟩
  intro tags pos i hnd hcov hi hlast
  rw [trans_row_sum tags pos i hnd hcov]
  have hne : tags ≠ [] := List.ne_nil_of_mem hi
  rw [count_dropLast_of_ne_getLast tags i hne hlast]
  apply div_self
  have hcnt : tags.count i ≠ 0 := Nat.pos_iff_ne_zero.mp (List.count_pos_iff.mpr hi)
  exact_mod_cast hcnt

/-- Witness for the amended row-sum statement at concrete corpora. -/
theorem table_row_sums_amended_witness :
    (([0, 1] : List ℕ).map (find_init_prob [0, 0, 1])).sum = 1
    ∧ (([0, 1] : List ℕ).map (find_trans_prob [0, 1, 0, 1, 0] 1)).sum = 1
    ∧ emisRowSum [((0 : ℕ), (0 : ℕ)), (1, 0), (2, 1)] 0 = 1 :=
  ⟨(@table_row_sums_amended ℕ ℕ _ _).1 [0, 0, 1] [0, 1]
      (by decide) (by decide) (by decide),
    (@table_row_sums_amended ℕ ℕ _ _).2.1 [0, 1, 0, 1, 0] [0, 1] 1
      (by decide) (by decide) (by decide) (by decide),
    (@table_row_sums_amended ℕ ℕ _ _).2.2 [((0 : ℕ), (0 : ℕ)), (1, 0), (2, 1)] 0
      (by decide)⟩

/-- C4 counterexample: for the training pairs x/A, y/A, z/B (tokens
0,1,2; tags A = 0, B = 1), V = 3 and tag B has total count 1 with one
distinct word, so its smoothed row sums to 2/4 and the residual is 1/4:
residual plus row sum is 3/4, not 1.  The claim only holds when exactly
one vocabulary word is unseen under the tag. -/
theorem laplace_residual_sum_counterexample :
    laplaceRowSum [((0 : ℕ), (0 : ℕ)), (1, 0), (2, 1)] 1
        + unseen_values [((0 : ℕ), (0 : ℕ)), (1, 0), (2, 1)] 1 = 3 / 4
    ∧ laplaceRowSum [((0 : ℕ), (0 : ℕ)), (1, 0), (2, 1)] 1
        + unseen_values [((0 : ℕ), (0 : ℕ)), (1, 0), (2, 1)] 1 ≠ 1 := by
  constructor <;>
    norm_num [laplaceRowSum, wordsOf, laplace_emis_prob, unseen_values, trainVocabSize,
      List.count_cons, List.count_nil, List.dedup, Prod.ext_iff]

/-- C4 amended: for every nonempty training corpus and every tag, the
residual 1/(C+V) counted once for each of the V - K training-vocabulary
words unseen under the tag (K the number of distinct words seen under
it), plus the sum of the smoothed emission row, equals 1. -/
theorem laplace_residual_sum_amended {Tag Token : Type} [DecidableEq Tag]
    [DecidableEq Token] (tagged : List (Token × Tag)) (j : Tag) (hne : tagged ≠ []) :
    laplaceRowSum tagged j
      + ((trainVocabSize tagged : ℚ) - ((wordsOf tagged j).dedup.length : ℚ))
        * unseen_values tagged j = 1 :=
  laplace_row_sum_full tagged j hne

/-- Witness for the amended Laplace mass statement at a concrete corpus. -/
theorem laplace_residual_sum_amended_witness :
    ([((0 : ℕ), (0 : ℕ)), (1, 0), (2, 1)] : List (ℕ × ℕ)) ≠ []
    ∧ laplaceRowSum [((0 : ℕ), (0 : ℕ)), (1, 0), (2, 1)] 1
        + ((trainVocabSize [((0 : ℕ), (0 : ℕ)), (1, 0), (2, 1)] : ℚ)
            - ((wordsOf [((0 : ℕ), (0 : ℕ)), (1, 0), (2, 1)] 1).dedup.length : ℚ))
          * unseen_values [((0 : ℕ), (0 : ℕ)), (1, 0), (2, 1)] 1 = 1 :=
  ⟨by decide, laplace_residual_sum_amended _ 1 (by decide)⟩

/-- C5 counterexample: for the training corpus x/A (token 0, tag 0) and
the unknown token 1, the patched unsmoothed table holds the stored float
0 = log2 1 for (tag 0, token 1), that is the probability 1 in the
pre-log representation: it is neither a negative-infinity cell (pre-log
probability 0) nor an absent cell. -/
theorem unsmoothed_unknown_counterexample :
    add_emis (find_emis_prob [((0 : ℕ), (0 : ℕ))]) [1] 0 1 = some 1
    ∧ add_emis (find_emis_prob [((0 : ℕ), (0 : ℕ))]) [1] 0 1 ≠ some 0
    ∧ add_emis (find_emis_prob [((0 : ℕ), (0 : ℕ))]) [1] 0 1 ≠ none := by
  refine ⟨by decide, by decide, by decide⟩

/-- C5 amended: under the unsmoothed unknown-token policy, every unknown
word receives, for every tag, the stored log value 0 = log2 1, that is
the probability 1 pre-log (the source comment says as much), not
negative infinity. -/
theorem unsmoothed_unknown_amended {Tag Token : Type} [DecidableEq Token]
    (emis : Tag → Token → Option ℚ) (unknown : List Token) (j : Tag) (w : Token)
    (hw : w ∈ unknown) : add_emis emis unknown j w = some 1 := by
  simp [add_emis, hw]

/-- Witness for the amended unknown-token value at a concrete table. -/
theorem unsmoothed_unknown_amended_witness :
    (1 : ℕ) ∈ [1]
    ∧ add_emis (find_emis_prob [((0 : ℕ), (0 : ℕ))]) [1] 0 1 = some 1 :=
  ⟨by decide, unsmoothed_unknown_amended _ [1] 0 1 (by decide)⟩

/-- C6: for the training corpus x/A (token 0, tag 0) and the unknown
token 5, the patched smoothed table stores the raw residual
1/(C+V) = 1/2 for (tag 0, token 5) without a log transform, while the
claim requires the float log2(1/2); the stored float 1/2 is positive and
log2 of the residual is negative, so the stored cell is not the log2 of
the residual. -/
theorem laplace_unknown_raw_store :
    laplace_add_emis (laplace_emis_prob [((0 : ℕ), (0 : ℕ))]) [5]
        (unseen_values [((0 : ℕ), (0 : ℕ))]) 0 5
      = some (SVal.fromRaw (1 / 2))
    ∧ SVal.fromRaw (1 / 2) ≠ SVal.fromLog (1 / 2)
    ∧ ((1 : ℝ) / 2) ≠ Real.logb 2 (1 / 2)
    ∧ Real.logb 2 ((1 : ℝ) / 2) < 0 := by
  have hlb : Real.logb 2 ((1 : ℝ) / 2) < 0 :=
    Real.logb_neg one_lt_two (by norm_num) (by norm_num)
  refine ⟨?_, by decide, ?_, hlb⟩
  · norm_num [laplace_add_emis, unseen_values, trainVocabSize,
      List.count_cons, List.count_nil, List.dedup]
  · intro h
    rw [← h] at hlb
    norm_num at hlb

/-- C10: the two unknown-token patches create a cell for every unknown
word under every tag; when the unknown words have no pre-existing cells
(which holds in the source, where unknown words are disjoint from the
training vocabulary), every pre-existing cell is passed through with its
stored float unchanged; and the patches do not create cells for
training-vocabulary words under tags they were never observed with. -/
theorem unknown_patch_frame {Tag Token : Type} [DecidableEq Tag] [DecidableEq Token] :
    (∀ (emis : Tag → Token → Option ℚ) (unknown : List Token) (j : Tag) (w : Token),
      w ∈ unknown → (add_emis emis unknown j w).isSome = true)
    ∧ (∀ (emis : Tag → Token → Option ℚ) (unknown : List Token) (j : Tag) (w : Token)
        (p : ℚ), (∀ u ∈ unknown, emis j u = none) → emis j w = some p
        → add_emis emis unknown j w = some p)
    ∧ (∀ (smoothed : Tag → Token → Option ℚ) (unknown : List Token) (unseen : Tag → ℚ)
        (j : Tag) (w : Token), w ∈ unknown
        → (laplace_add_emis smoothed unknown unseen j w).isSome = true)
    ∧ (∀ (smoothed : Tag → Token → Option ℚ) (unknown : List Token) (unseen : Tag → ℚ)
        (j : Tag) (w : Token) (p : ℚ), (∀ u ∈ unknown, smoothed j u = none)
        → smoothed j w = some p
        → laplace_add_emis smoothed unknown unseen j w = some (.fromLog p))
    ∧ add_emis (find_emis_prob [((0 : ℕ), (0 : ℕ)), (1, 1)]) [] 0 1 = none
    ∧ laplace_add_emis (laplace_emis_prob [((0 : ℕ), (0 : ℕ)), (1, 1)]) []
        (unseen_values [((0 : ℕ), (0 : ℕ)), (1, 1)]) 0 1 = none := by
  refine ⟨?_, ?_, ?_, ?_, by decide, by decide⟩
  · intro emis unknown j w hw
    simp [add_emis, hw]
  · intro emis unknown j w p hdisj hp
    by_cases hw : w ∈ unknown
    · rw [hdisj w hw] at hp
      exact absurd hp (by simp)
    · simp [add_emis, hw, hp]
  · intro smoothed unknown unseen j w hw
    simp [laplace_add_emis, hw]
  · intro smoothed unknown unseen j w p hdisj hp
    by_cases hw : w ∈ unknown
    · rw [hdisj w hw] at hp
      exact absurd hp (by simp)
    · simp [laplace_add_emis, hw, hp]

/-- Witness for the frame statement of the unknown-token patches. -/
theorem unknown_patch_frame_witness :
    (add_emis (find_emis_prob [((0 : ℕ), (0 : ℕ))]) [5] 0 5).isSome = true
    ∧ add_emis (find_emis_prob [((0 : ℕ), (0 : ℕ))]) [5] 0 0 = some 1
    ∧ (laplace_add_emis (laplace_emis_prob [((0 : ℕ), (0 : ℕ))]) [5]
        (unseen_values [((0 : ℕ), (0 : ℕ))]) 0 5).isSome = true
    ∧ laplace_add_emis (laplace_emis_prob [((0 : ℕ), (0 : ℕ))]) [5]
        (unseen_values [((0 : ℕ), (0 : ℕ))]) 0 0 = some (.fromLog 1) :=
  ⟨(@unknown_patch_frame ℕ ℕ _ _).1 _ [5] 0 5 (by decide),
    (@unknown_patch_frame ℕ ℕ _ _).2.1 _ [5] 0 0 1 (by decide)
      (by norm_num [find_emis_prob, List.count_cons, List.count_nil, Prod.ext_iff]),
    (@unknown_patch_frame ℕ ℕ _ _).2.2.1 _ [5] _ 0 5 (by decide),
    (@unknown_patch_frame ℕ ℕ _ _).2.2.2.1 _ [5] _ 0 0 1
      (by decide)
      (by norm_num [laplace_emis_prob, trainVocabSize, List.count_cons, List.count_nil,
        List.dedup, Prod.ext_iff])⟩

/-- The ex tables are the trained model of the one-sentence corpus x/A
y/B in the pre-log representation: a pre-log probability 1 is the log
value 0 of the WithBot tables and a pre-log probability 0 is bottom. -/
theorem exModel_matches_training :
    find_init_prob [(0 : ℕ)] 0 = 1 ∧ find_init_prob [(0 : ℕ)] 1 = 0
    ∧ find_trans_prob [(0 : ℕ), 1] 0 1 = 1 ∧ find_trans_prob [(0 : ℕ), 1] 0 0 = 0
    ∧ find_trans_prob [(0 : ℕ), 1] 1 0 = 0 ∧ find_trans_prob [(0 : ℕ), 1] 1 1 = 0
    ∧ find_emis_prob [((0 : ℕ), (0 : ℕ)), (1, 1)] 0 0 = some 1
    ∧ find_emis_prob [((0 : ℕ), (0 : ℕ)), (1, 1)] 1 1 = some 1
    ∧ find_emis_prob [((0 : ℕ), (0 : ℕ)), (1, 1)] 0 1 = none
    ∧ find_emis_prob [((0 : ℕ), (0 : ℕ)), (1, 1)] 1 0 = none := by
  norm_num [find_init_prob, find_trans_prob, find_emis_prob, List.count_cons,
    List.count_nil, Prod.ext_iff]

theorem backPtr_succ_ne_origin {Tag Token V : Type} [LinearOrder Tag] [LinearOrder V]
    [Add V] [OrderBot V] [Inhabited Token] (obs : List Token) (states : List Tag)
    (ip : Tag → V) (tp : Tag → Tag → V) (ep : Tag → Token → Option V) (t : ℕ) (j : Tag) :
    backPtr obs states ip tp ep (t + 1) j ≠ .origin := by
  cases hep : ep j (obs.getD (t + 1) default) with
  | none =>
    have heq : backPtr obs states ip tp ep (t + 1) j = BP.unset := by
      rw [backPtr, hep]
    rw [heq]
    simp
  | some e =>
    have heq : backPtr obs states ip tp ep (t + 1) j
        = match states.map fun i => (viterbiChart obs states ip tp ep t i + tp i j + e, i) with
          | [] => BP.unset
          | o :: os => BP.tag (lexMax o os).2 := by
      rw [backPtr, hep]
    rw [heq]
    cases states.map fun i => (viterbiChart obs states ip tp ep t i + tp i j + e, i) with
    | nil => simp
    | cons o os => simp

/-- A successful backtracking run started at index t with fuel t + 1, on
a backpointer table whose row 0 is all origin and whose later rows are
never origin, returns exactly t + 1 tags. -/
theorem backtrackFuel_ok_length {Tag : Type} (bp : ℕ → Tag → BP Tag)
    (h0 : ∀ j, bp 0 j = .origin) (h1 : ∀ t j, bp (t + 1) j ≠ .origin) :
    ∀ (t : ℕ) (j : Tag) (l : List Tag),
      backtrackFuel bp (t + 1) t (.tag j) = .ok l → l.length = t + 1 := by
  intro t
  induction t with
  | zero =>
    intro j l h
    have hred : backtrackFuel bp 1 0 (.tag j)
        = (backtrackFuel bp 0 (0 - 1) (bp 0 j)).map fun l => j :: l := rfl
    rw [hred, h0 j] at h
    simp only [backtrackFuel, Except.map, Except.ok.injEq] at h
    subst h
    rfl
  | succ t ih =>
    intro j l h
    have hred : backtrackFuel bp (t + 2) (t + 1) (.tag j)
        = (backtrackFuel bp (t + 1) (t + 1 - 1) (bp (t + 1) j)).map fun l => j :: l := rfl
    rw [hred] at h
    cases hbp : bp (t + 1) j with
    | origin => exact absurd hbp (h1 t j)
    | unset =>
      rw [hbp] at h
      simp [backtrackFuel, Except.map] at h
    | tag j' =>
      rw [hbp] at h
      cases hres : backtrackFuel bp (t + 1) (t + 1 - 1) (.tag j') with
      | error e =>
        rw [hres] at h
        simp [Except.map] at h
      | ok l' =>
        rw [hres] at h
        simp only [Except.map, Except.ok.injEq] at h
        subst h
        have hlen := ih j' l' hres
        simp [hlen]

/-- C8 counterexample: on the trained x/A y/B model and the nonempty
test sequence y x x, the decoder crashes: every chart score is bottom,
the tie-break selects tag B at the final step, and B has no emission
entry for x, so its backpointer cell is still the unset integer 0 and
the next lookup raises a key error.  No tag sequence is returned, so no
output of the same length as the input exists. -/
theorem decode_length_counterexample :
    viterbi_algorithm [1, 0, 0] [0, 1] exInit exTrans exEmis = .error .keyError
    ∧ (viterbi_algorithm [1, 0, 0] [0, 1] exInit exTrans exEmis).isOk = false
    ∧ ([1, 0, 0] : List ℕ) ≠ [] :=
  ⟨by decide, by decide, by decide⟩

/-- C8 amended: whenever a decode call returns a tag sequence (rather
than raising), that sequence has the same length as the observation
sequence and is the reversal of the backpointer chain followed from the
chosen final tag down to the origin sentinel at step 0. -/
theorem decode_length_amended {Tag Token V : Type} [LinearOrder Tag] [LinearOrder V]
    [Add V] [OrderBot V] [Inhabited Token]
    (obs : List Token) (states : List Tag) (ip : Tag → V) (tp : Tag → Tag → V)
    (ep : Tag → Token → Option V) (out : List Tag)
    (h : viterbi_algorithm obs states ip tp ep = .ok out) :
    out.length = obs.length
    ∧ ∃ (pred : Tag) (chain : List Tag),
        backtrackFuel (backPtr obs states ip tp ep) obs.length (obs.length - 1) (.tag pred)
          = .ok chain
        ∧ out = chain.reverse := by
  cases obs with
  | nil =>
    cases states with
    | nil => simp [viterbi_algorithm] at h
    | cons s ss => simp [viterbi_algorithm] at h
  | cons o os =>
    cases states with
    | nil => simp [viterbi_algorithm] at h
    | cons s ss =>
      simp only [viterbi_algorithm] at h
      cases hres : backtrackFuel (backPtr (o :: os) (s :: ss) ip tp ep) (o :: os).length
          ((o :: os).length - 1)
          (.tag (lexMax (viterbiChart (o :: os) (s :: ss) ip tp ep ((o :: os).length - 1) s, s)
            (ss.map fun j =>
              (viterbiChart (o :: os) (s :: ss) ip tp ep ((o :: os).length - 1) j, j))).2) with
      | error e =>
        rw [hres] at h
        simp [Except.map] at h
      | ok chain =>
        rw [hres] at h
        simp only [Except.map, Except.ok.injEq] at h
        have h0 : ∀ j, backPtr (o :: os) (s :: ss) ip tp ep 0 j = .origin := fun _ => rfl
        have h1 : ∀ t j, backPtr (o :: os) (s :: ss) ip tp ep (t + 1) j ≠ .origin :=
          fun t j => backPtr_succ_ne_origin (o :: os) (s :: ss) ip tp ep t j
        have hlen : chain.length = os.length + 1 :=
          backtrackFuel_ok_length (backPtr (o :: os) (s :: ss) ip tp ep) h0 h1
            os.length _ chain hres
        constructor
        · rw [← h]
          simp [hlen]
        · exact ⟨_, chain, hres, h.symm⟩

/-- Witness: a decode call that succeeds on the trained x/A y/B model,
with the length and backtracking-reversal conclusions instantiated. -/
theorem decode_length_amended_witness :
    ([1, 1] : List ℕ).length = ([1, 1] : List ℕ).length
    ∧ ∃ (pred : ℕ) (chain : List ℕ),
        backtrackFuel (backPtr [1, 1] [0, 1] exInit exTrans exEmis)
          ([1, 1] : List ℕ).length (([1, 1] : List ℕ).length - 1) (.tag pred) = .ok chain
        ∧ [1, 1] = chain.reverse :=
  decode_length_amended [1, 1] [0, 1] exInit exTrans exEmis [1, 1] (by decide)

/-- C7: on the trained x/A y/B model and the test sequence y x, every
chart cell at both steps is bottom (negative infinity), and the decode
call does not return a degenerate tag sequence: it aborts with a key
error, because the tie-break selects tag B at the final step, B has no
emission entry for x, its backpointer cell still holds the unset integer
0, and the next backtracking lookup uses 0 as a dictionary key. -/
theorem degenerate_decode_abort :
    viterbiChart [1, 0] [0, 1] exInit exTrans exEmis 0 0 = ⊥
    ∧ viterbiChart [1, 0] [0, 1] exInit exTrans exEmis 0 1 = ⊥
    ∧ viterbiChart [1, 0] [0, 1] exInit exTrans exEmis 1 0 = ⊥
    ∧ viterbiChart [1, 0] [0, 1] exInit exTrans exEmis 1 1 = ⊥
    ∧ viterbi_algorithm [1, 0] [0, 1] exInit exTrans exEmis = .error .keyError :=
  ⟨by decide, by decide, by decide, by decide, by decide⟩

/-- C9 counterexample: on the trained x/A y/B model, decoding the empty
observation sequence produces the generic index error raised when the
initialisation step reads observations[0]; it is not the dedicated
EmptyInput condition of the specification error taxonomy, and no check
precedes the chart construction. -/
theorem empty_input_counterexample :
    viterbi_algorithm ([] : List ℕ) [0, 1] exInit exTrans exEmis = .error .indexError
    ∧ PyErr.indexError ≠ PyErr.emptyInput :=
  ⟨by decide, by decide⟩

/-- C9 amended: for every model with a nonempty state set, decoding an
empty observation sequence fails, with the index error raised inside the
initialisation step (not a dedicated EmptyInput rejection before the
dynamic programming); the failure is the result of that call alone. -/
theorem empty_input_amended {Tag Token V : Type} [LinearOrder Tag] [LinearOrder V]
    [Add V] [OrderBot V] [Inhabited Token] (s : Tag) (ss : List Tag) (ip : Tag → V)
    (tp : Tag → Tag → V) (ep : Tag → Token → Option V) :
    viterbi_algorithm ([] : List Token) (s :: ss) ip tp ep = .error .indexError
    ∧ viterbi_algorithm ([] : List Token) (s :: ss) ip tp ep ≠ .error .emptyInput := by
  constructor
  · rfl
  · intro hcontra
    have hh : viterbi_algorithm ([] : List Token) (s :: ss) ip tp ep
        = .error .indexError := rfl
    rw [hh] at hcontra
    simp at hcontra

/-- Witness for the empty-input behaviour at a concrete model. -/
theorem empty_input_amended_witness :
    viterbi_algorithm ([] : List ℕ) [0] w1Ip w1Tp w1Ep = .error .indexError
    ∧ viterbi_algorithm ([] : List ℕ) [0] w1Ip w1Tp w1Ep ≠ .error .emptyInput :=
  empty_input_amended 0 [] w1Ip w1Tp w1Ep
